import Mathlib

/-!
Verification of the `Vector` sequence type of the chapter-12 notebook
(Fluent Python teaching corpus).  The final consolidated `class Vector`
is embedded below.  Scalar component values are kept generic wherever the
Python code is generic over what the underlying `array('d')` buffer
provides (builtin `hash`, byte packing and `repr` of one component enter
as function parameters), and are instantiated at `ℝ` for the coordinate
mathematics (`math.hypot`, `math.atan2`, `math.pi`).
-/

namespace FluentPy

/-- `class Vector`: composition over a dense buffer,
`self._components = array(self.typecode, components)`. -/
structure Vector (α : Type) where
  _components : List α
deriving DecidableEq

/-- `def __len__(self): return len(self._components)` -/
def Vector.len (v : Vector α) : Nat := v._components.length

/-- A Python `slice(start, stop, step)` object; each part may be `None`. -/
structure Pyslice where
  start : Option Int
  stop : Option Int
  step : Option Int
deriving DecidableEq

/-- `slice.indices(n)` normalization (CPython `PySlice_AdjustIndices`),
which is what `self._components[key]` applies to a slice key: missing
bounds default by step sign, negative bounds count from the end, and both
bounds are clamped into range.  The step is taken as given (`None` means
`1`); a zero step is rejected before this point. -/
def sliceIndices (n : Nat) (s : Pyslice) : Int × Int × Int :=
  let step : Int := s.step.getD 1
  let lower : Int := if step < 0 then -1 else 0
  let upper : Int := if step < 0 then (n : Int) - 1 else (n : Int)
  let adjust : Int → Int := fun i => if i < 0 then max (i + (n : Int)) lower else min i upper
  let start : Int :=
    match s.start with
    | none => if step < 0 then upper else lower
    | some i => adjust i
  let stop : Int :=
    match s.stop with
    | none => if step < 0 then lower else upper
    | some i => adjust i
  (start, stop, step)

/-- The number of items a normalized slice selects, as CPython computes it
(`PySlice_AdjustIndices` return value; C division truncates). -/
def sliceLength (n : Nat) (s : Pyslice) : Nat :=
  let (start, stop, step) := sliceIndices n s
  if 0 < step then
    if start < stop then ((stop - start - 1).tdiv step + 1).toNat else 0
  else
    if stop < start then ((stop - start + 1).tdiv step + 1).toNat else 0

/-- `xs[start:stop:step]` on a buffer: CPython materializes item
`start + k * step` for `k = 0 .. slicelength - 1`, in that order. -/
def getSliceList [Inhabited α] (xs : List α) (s : Pyslice) : List α :=
  let (start, _, step) := sliceIndices xs.length s
  (List.range (sliceLength xs.length s)).map fun (k : Nat) =>
    xs.getD (start + (k : Int) * step).toNat default

/-- The failures `Vector.__getitem__` / `Vector.frombytes` can raise:
`InvalidIndexType` is the `TypeError` from `operator.index`,
`IndexOutOfRange` the `IndexError` from the buffer lookup,
`ZeroStepSlice` the `ValueError` for a zero slice step, and
`FormatError` the `ValueError` from `memoryview.cast`. -/
inductive Err
  | InvalidIndexType
  | IndexOutOfRange
  | ZeroStepSlice
  | FormatError
deriving DecidableEq

-- Except results are compared in concrete witness evaluations.
deriving instance DecidableEq for Except

/-- The `isinstance(key, slice)` branch of `Vector.__getitem__`:
`cls = type(self); return cls(self._components[key])` — the selected
sub-sequence is wrapped back into a `Vector` by the class's own
constructor. -/
def getitemSlice [Inhabited α] (v : Vector α) (s : Pyslice) : Except Err (Vector α) :=
  if s.step.getD 1 = 0 then .error .ZeroStepSlice
  else .ok ⟨getSliceList v._components s⟩

/-- The integer branch of `Vector.__getitem__`:
`index = operator.index(key); return self._components[index]` —
a negative index counts from the end, anything outside `[-n, n-1]`
raises `IndexError`. -/
def getitemInt [Inhabited α] (v : Vector α) (i : Int) : Except Err α :=
  let n : Int := v.len
  let j := if i < 0 then i + n else i
  if 0 ≤ j ∧ j < n then .ok (v._components.getD j.toNat default)
  else .error .IndexOutOfRange

/-- One part of a comma-separated composite index expression. -/
inductive KeyPart
  | int (i : Int)
  | slice (s : Pyslice)
deriving DecidableEq

/-- The key argument of `Vector.__getitem__`: an integer, a slice, a float
(a type with no `__index__`, so `operator.index` raises `TypeError`), or a
comma-separated composite index (Python passes a tuple, which also has no
`__index__`). -/
inductive Key
  | int (i : Int)
  | slice (s : Pyslice)
  | float (x : ℚ)
  | tuple (parts : List KeyPart)
deriving DecidableEq

/-- What `Vector.__getitem__` returns: a new `Vector` for a slice key, a
bare component for an integer key. -/
inductive GetResult (α : Type)
  | vec (v : Vector α)
  | scalar (x : α)
deriving DecidableEq

/-- `Vector.__getitem__` dispatch: slices are detected with
`isinstance(key, slice)`; every other key goes through `operator.index`. -/
def getItem [Inhabited α] (v : Vector α) : Key → Except Err (GetResult α)
  | .slice s => (getitemSlice v s).map .vec
  | .int i => (getitemInt v i).map .scalar
  | .float _ => .error .InvalidIndexType
  | .tuple _ => .error .InvalidIndexType

/-- A right-hand operand for `Vector.__eq__`: any sized iterable of
components — another `Vector`, or a plain tuple or list. -/
inductive Pyseq (α : Type)
  | vec (v : Vector α)
  | tuple (xs : List α)
  | list (xs : List α)
deriving DecidableEq

/-- Iterating the operand yields its components in order. -/
def Pyseq.toList : Pyseq α → List α
  | .vec v => v._components
  | .tuple xs => xs
  | .list xs => xs

/-- `len(other)` -/
def Pyseq.len (o : Pyseq α) : Nat := o.toList.length

/-- `Vector.__eq__`:
`len(self) == len(other) and all(a == b for a, b in zip(self, other))` —
note the code never checks `isinstance(other, Vector)`. -/
def eqPy [DecidableEq α] (v : Vector α) (other : Pyseq α) : Bool :=
  v.len == other.len && (v._components.zip other.toList).all fun p => p.1 == p.2

/-- `Vector.__hash__`:
`hashes = (hash(x) for x in self); return functools.reduce(operator.xor, hashes, 0)`.
`hashF` stands for the builtin `hash` on one component value. -/
def hashPy (hashF : α → Nat) (v : Vector α) : Nat :=
  (v._components.map hashF).foldl Nat.xor 0

/-- `Vector.__bytes__`:
`bytes([ord(self.typecode)]) + bytes(self._components)` with
`typecode = 'd'` (`ord('d') = 100`).  `pack` stands for the machine
packing of one double into its 8 bytes; bytes are modelled as naturals. -/
def toBytesPy (pack : α → List Nat) (v : Vector α) : List Nat :=
  100 :: (v._components.map pack).flatten

/-- Split a byte string into consecutive 8-byte items, the way
`memoryview(octets).cast('d')` reads it. -/
def chunks8 : List Nat → List (List Nat)
  | [] => []
  | b :: bs => (b :: bs.take 7) :: chunks8 (bs.drop 7)
termination_by l => l.length
decreasing_by simp [List.length_drop]; omega

/-- `Vector.frombytes`:
`typecode = chr(octets[0]); memv = memoryview(octets[1:]).cast(typecode); return cls(memv)`.
Modelled for the class's fixed typecode `'d'` (tag byte 100, item size 8):
an empty byte string fails the `octets[0]` lookup with `IndexError`, a
payload that is not a whole number of 8-byte items fails the cast, and any
other leading tag is abstracted as the cast failure (spec section 6 calls
an unrecognized tag a FormatError).  `unpack` stands for the machine
decoding of one 8-byte item. -/
def frombytes (unpack : List Nat → α) (octets : List Nat) : Except Err (Vector α) :=
  match octets with
  | [] => .error .IndexOutOfRange
  | tag :: rest =>
    if tag = 100 then
      if rest.length % 8 = 0 then .ok ⟨(chunks8 rest).map unpack⟩
      else .error .FormatError
    else .error .FormatError

/-- An instance `__dict__`: Python attribute writes land here (the buffer
attribute `_components` itself lives in this dict). -/
def dictSet (d : List (String × V)) (k : String) (v : V) : List (String × V) :=
  match d with
  | [] => [(k, v)]
  | (k', v') :: rest => if k' = k then (k, v) :: rest else (k', v') :: dictSet rest k v

/-- `__match_args__ = ('x', 'y', 'z', 't')` -/
def matchArgs : List String := ["x", "y", "z", "t"]

/-- Python `str.islower()` restricted to ASCII (the only use is on a
one-character attribute name): at least one character and all of them in
`'a'..'z'`. -/
def islowerStr (s : String) : Bool :=
  !s.toList.isEmpty && s.toList.all Char.isLower

/-- The two `AttributeError` messages `Vector3.__setattr__` raises:
`'readonly attribute {attr_name!r}'` for a positional alias, and
`"can't set attributes 'a' to 'z' in {cls_name!r}"` for the rest of the
reserved single-letter namespace. -/
inductive AttrErr
  | readonlyAttr (name : String)
  | reservedLower
deriving DecidableEq

/-- `Vector3.__setattr__` (the revision that guards attribute writes),
acting on the instance dict: a one-character name in `__match_args__` is
readonly, any other one-character lowercase name is reserved, everything
else falls through to `super().__setattr__` (a plain dict store).  On an
error the dict — and so the `_components` buffer — is returned untouched,
since the `raise` happens before any store. -/
def setattr3 (d : List (String × V)) (name : String) (value : V) :
    Option AttrErr × List (String × V) :=
  if name.length = 1 then
    if name ∈ matchArgs then (some (.readonlyAttr name), d)
    else if islowerStr name then (some .reservedLower, d)
    else (none, dictSet d name value)
  else (none, dictSet d name value)

/-- The final consolidated `class Vector` defines no `__setattr__`, so an
attribute write takes Python's default path: store into the instance dict,
raising nothing. -/
def setattrFinal (d : List (String × V)) (name : String) (value : V) :
    Option AttrErr × List (String × V) :=
  (none, dictSet d name value)

/-- `math.hypot(*xs)`: the Euclidean norm of the argument list. -/
noncomputable def hypot (xs : List ℝ) : ℝ :=
  Real.sqrt (xs.map fun x => x ^ 2).sum

/-- `Vector.__abs__`: `return math.hypot(*self)` -/
noncomputable def absPy (v : Vector ℝ) : ℝ := hypot v._components

/-- `bool(x)` on a float: true exactly when `x` is nonzero. -/
def pyTruthFloat (x : ℝ) : Prop := x ≠ 0

/-- `Vector.__bool__`: `return bool(abs(self))` -/
def boolPy (v : Vector ℝ) : Prop := pyTruthFloat (absPy v)

/-- `math.atan2(y, x)` over the reals (signed zeros aside): the angle of
the point `(x, y)`, in `(-π, π]`. -/
noncomputable def atan2 (y x : ℝ) : ℝ :=
  if 0 < x then Real.arctan (y / x)
  else if x < 0 then
    (if 0 ≤ y then Real.arctan (y / x) + Real.pi else Real.arctan (y / x) - Real.pi)
  else
    (if 0 < y then Real.pi / 2 else if y < 0 then -(Real.pi / 2) else 0)

/-- `Vector.angle(self, n)`:
`r = math.hypot(*self[n:])`, `a = math.atan2(r, self[n-1])`, and
`if (n == len(self) - 1) and (self[-1] < 0): return math.pi * 2 - a`
`else: return a`.  Component accesses go through `__getitem__`, so their
failures propagate; the `and` short-circuits, so `self[-1]` is only read
when `n == len(self) - 1`. -/
noncomputable def angle (v : Vector ℝ) (n : Int) : Except Err ℝ := do
  let tail ← getitemSlice v ⟨some n, none, none⟩
  let r := hypot tail._components
  let x ← getitemInt v (n - 1)
  let a := atan2 r x
  if n = (v.len : Int) - 1 then do
    let last ← getitemInt v (-1)
    if last < 0 then pure (2 * Real.pi - a) else pure a
  else pure a

/-- `Vector.angles(self)`: `(self.angle(n) for n in range(1, len(self)))` -/
noncomputable def anglesPy (v : Vector ℝ) : List (Except Err ℝ) :=
  (List.range' 1 (v.len - 1)).map fun (n : Nat) => angle v (n : Int)

/-- `fmt_spec.endswith('h')`, the one-character-suffix test of
`Vector.__format__`, modelled structurally on the character list: the
last character is `'h'`. -/
def endsWithH (spec : String) : Bool := spec.toList.getLast? = some 'h'

/-- `Vector.__format__`: a spec ending in `'h'` is stripped of the marker
and renders `'<{}>'` around magnitude-then-angles, any other spec renders
`'({})'` around the Cartesian components; either way the parts are each
formatted with the remaining spec and joined with `', '`.  `fmtc` stands
for the builtin `format(c, fmt_spec)` on one float; a failure inside the
`angles()` generator propagates. -/
noncomputable def formatPy (fmtc : String → ℝ → String) (v : Vector ℝ) (spec : String) :
    Except Err String :=
  if endsWithH spec then do
    let inner := spec.dropRight 1
    let angs ← (anglesPy v).mapM id
    let coords := absPy v :: angs
    pure ("<" ++ String.intercalate ", " (coords.map (fmtc inner)) ++ ">")
  else
    pure ("(" ++ String.intercalate ", " (v._components.map (fmtc spec)) ++ ")")

/-- `reprlib.repr` on an `array('d', ...)`: `reprlib.Repr.repr_array` with
the default `maxarray = 5` — an empty array falls back to the builtin
repr `array('d')`, otherwise at most 5 leading items are shown and a
final `...` marks the elision.  `reprF` stands for the builtin `repr` of
one float (float reprs are under the 30-character `maxother` cut, so
`repr_instance` returns them unchanged). -/
def reprlibArray (reprF : α → String) (xs : List α) : String :=
  if xs.isEmpty then "array('d')"
  else
    let pieces := (xs.take 5).map reprF ++ if 5 < xs.length then ["..."] else []
    "array('d', [" ++ String.intercalate ", " pieces ++ "])"

/-- Python `str.find(c)`: index of the first occurrence, `-1` if absent. -/
def pyFind (cs : List Char) (c : Char) : Int :=
  match cs with
  | [] => -1
  | c' :: rest =>
    if c' = c then 0
    else
      let r := pyFind rest c
      if r = -1 then -1 else r + 1

/-- `Vector.__repr__`:
`components = reprlib.repr(self._components)`;
`components = components[components.find('['):-1]`;
`return f'Vector({components})'`.  The string slice reuses the slice
semantics on the character list. -/
def reprPy (reprF : α → String) (v : Vector α) : String :=
  let components := reprlibArray reprF v._components
  let cs := components.toList
  let sliced := getSliceList cs ⟨some (pyFind cs '['), some (-1), none⟩
  "Vector(" ++ String.mk sliced ++ ")"

/-! Spec-side definitions: these follow the specification's words, to be
compared with the embedded code above. -/

/-- Spec side, section 4.2: the number of indices the normalized slice
`(start, stop, step)` selects out of `0 .. n-1` — the count of steps `k`
for which `start + k * step` still lies strictly before `stop` in the
direction of travel. -/
def specSliceLen (n : Nat) (s : Pyslice) : Nat :=
  let (start, stop, step) := sliceIndices n s
  ((Finset.range n).filter fun (k : Nat) =>
      if 0 < step then start + (k : Int) * step < stop
      else stop < start + (k : Int) * step).card

/-- Spec side, section 4.6: the hyperspherical angle about axis `k` — the
two-argument arctangent of (Euclidean magnitude of components `k..n-1`,
component `k-1`), corrected to `2π − angle` when `k` is the last axis and
the last component is strictly negative. -/
noncomputable def specAngle (v : Vector ℝ) (k : Nat) : ℝ :=
  let a := atan2 (hypot (v._components.drop k)) (v._components.getD (k - 1) 0)
  if k = v.len - 1 ∧ v._components.getD (v.len - 1) 0 < 0 then 2 * Real.pi - a
  else a

/-- Spec side, section 4.6: the angles about axes `1 .. n-1`, in
increasing axis order. -/
noncomputable def specAngles (v : Vector ℝ) : List ℝ :=
  (List.range' 1 (v.len - 1)).map (specAngle v)

/-! ## Helper lemmas -/

theorem eqPy_eq_true_iff {α : Type} [DecidableEq α] (v : Vector α) (other : Pyseq α) :
    eqPy v other = true ↔
      v.len = other.len ∧ List.Forall₂ (fun a b : α => a = b) v._components other.toList := by
  simp only [eqPy, Bool.and_eq_true, beq_iff_eq, List.all_eq_true, Vector.len, Pyseq.len]
  rw [List.forall₂_iff_zip]
  constructor
  · rintro ⟨h1, h2⟩
    refine ⟨h1, h1, ?_⟩
    intro a b hab
    simpa using h2 (a, b) hab
  · rintro ⟨h1, -, h2⟩
    refine ⟨h1, ?_⟩
    rintro ⟨a, b⟩ hab
    simpa using h2 hab

theorem eqPy_components_eq {α : Type} [DecidableEq α] {v w : Vector α}
    (h : eqPy v (Pyseq.vec w) = true) : v._components = w._components := by
  have h2 := ((eqPy_eq_true_iff v (Pyseq.vec w)).mp h).2
  rw [show (fun a b : α => a = b) = (Eq : α → α → Prop) from rfl,
    List.forall₂_eq_eq_eq] at h2
  exact h2

theorem eqPy_vec_self {α : Type} [DecidableEq α] (v : Vector α) :
    eqPy v (Pyseq.vec v) = true := by
  rw [eqPy_eq_true_iff]
  exact ⟨rfl, List.forall₂_same.mpr fun x _ => rfl⟩

theorem flatten_length_mod8 (l : List (List Nat)) (h : ∀ c ∈ l, c.length = 8) :
    l.flatten.length % 8 = 0 := by
  induction l with
  | nil => rfl
  | cons c rest ih =>
    have hc : c.length = 8 := h c (List.mem_cons_self c rest)
    have hr := ih fun c hc => h c (List.mem_cons_of_mem _ hc)
    simp only [List.flatten_cons, List.length_append, hc]
    omega

theorem chunks8_flatten (l : List (List Nat)) (h : ∀ c ∈ l, c.length = 8) :
    chunks8 l.flatten = l := by
  induction l with
  | nil => simp [chunks8]
  | cons c rest ih =>
    have hc : c.length = 8 := h c (List.mem_cons_self c rest)
    match c, hc with
    | b :: bs, hc =>
      have hbs : bs.length = 7 := by simpa using hc
      simp only [List.flatten_cons, List.cons_append, chunks8]
      rw [List.take_left' hbs, List.drop_left' hbs,
        ih fun c hc => h c (List.mem_cons_of_mem _ hc)]

theorem sliceIndices_step (n : Nat) (s : Pyslice) :
    (sliceIndices n s).2.2 = s.step.getD 1 := by
  rcases s with ⟨sa, sb, sc⟩
  cases sa <;> cases sb <;> rfl

theorem sliceIndices_bounds (n : Nat) (s : Pyslice) (start stop step : Int)
    (h : sliceIndices n s = (start, stop, step)) :
    (0 < step → 0 ≤ start ∧ start ≤ (n : Int) ∧ 0 ≤ stop ∧ stop ≤ (n : Int)) ∧
    (step < 0 →
      -1 ≤ start ∧ start ≤ (n : Int) - 1 ∧ -1 ≤ stop ∧ stop ≤ (n : Int) - 1) := by
  rcases s with ⟨sa, sb, sc⟩
  simp only [sliceIndices] at h
  cases sa <;> cases sb <;> split_ifs at h <;>
    simp only [Prod.mk.injEq] at h <;>
    obtain ⟨rfl, rfl, rfl⟩ := h <;>
    constructor <;> intro hsg <;> omega

theorem nat_lt_ediv_succ_iff (d step : Int) (hstep : 0 < step) (hd : 0 ≤ d) (k : Nat) :
    k < (d / step + 1).toNat ↔ (k : Int) * step ≤ d := by
  have hq : 0 ≤ d / step := Int.ediv_nonneg hd (le_of_lt hstep)
  have hq1 : d / step * step ≤ d := (Int.le_ediv_iff_mul_le hstep).mp le_rfl
  have hq2 : d < (d / step + 1) * step := Int.lt_ediv_add_one_mul_self d hstep
  constructor
  · intro hk
    have hkq : (k : Int) ≤ d / step := by omega
    calc (k : Int) * step ≤ d / step * step :=
          mul_le_mul_of_nonneg_right hkq (le_of_lt hstep)
      _ ≤ d := hq1
  · intro hk
    by_contra hcon
    have hkq : d / step + 1 ≤ (k : Int) := by omega
    have := mul_le_mul_of_nonneg_right hkq (le_of_lt hstep)
    omega

theorem sliceLength_eq (n : Nat) (s : Pyslice) (start stop step : Int)
    (h : sliceIndices n s = (start, stop, step)) :
    sliceLength n s =
      if 0 < step then
        if start < stop then ((stop - start - 1).tdiv step + 1).toNat else 0
      else
        if stop < start then ((stop - start + 1).tdiv step + 1).toNat else 0 := by
  unfold sliceLength
  rw [h]

theorem stepOf_eq (n : Nat) (s : Pyslice) (start stop step : Int)
    (h : sliceIndices n s = (start, stop, step)) : step = s.step.getD 1 := by
  have h3 := sliceIndices_step n s
  rw [h] at h3
  exact h3

theorem lt_sliceLength_iff (n : Nat) (s : Pyslice) (start stop step : Int)
    (h : sliceIndices n s = (start, stop, step)) (hstep : step ≠ 0) (k : Nat) :
    k < sliceLength n s ↔
      (if 0 < step then start + (k : Int) * step < stop
       else stop < start + (k : Int) * step) := by
  rw [sliceLength_eq n s start stop step h]
  rcases lt_or_gt_of_ne hstep with hneg | hpos
  · have hns : ¬(0 : Int) < step := by omega
    simp only [if_neg hns]
    by_cases hlt : stop < start
    · rw [if_pos hlt]
      have htpos : (0 : Int) < -step := by omega
      have hd : (0 : Int) ≤ start - stop - 1 := by omega
      have htd : (stop - start + 1).tdiv step = (start - stop - 1).tdiv (-step) := by
        rw [show stop - start + 1 = -(start - stop - 1) by ring, Int.neg_tdiv,
          Int.tdiv_neg]
      rw [htd, Int.tdiv_eq_ediv hd (le_of_lt htpos),
        nat_lt_ediv_succ_iff _ _ htpos hd k]
      have hks : (k : Int) * step = -((k : Int) * (-step)) := by ring
      omega
    · rw [if_neg hlt]
      have hm : (0 : Int) ≤ (k : Int) * (-step) := mul_nonneg (by positivity) (by omega)
      have hks : (k : Int) * step = -((k : Int) * (-step)) := by ring
      simp only [Nat.not_lt_zero, false_iff]
      omega
  · simp only [if_pos hpos]
    by_cases hlt : start < stop
    · rw [if_pos hlt]
      have hd : (0 : Int) ≤ stop - start - 1 := by omega
      rw [Int.tdiv_eq_ediv hd (le_of_lt hpos), nat_lt_ediv_succ_iff _ _ hpos hd k]
      omega
    · rw [if_neg hlt]
      have hm : (0 : Int) ≤ (k : Int) * step := mul_nonneg (by positivity) (le_of_lt hpos)
      simp only [Nat.not_lt_zero, false_iff]
      omega

theorem sliceLength_le (n : Nat) (s : Pyslice) (hstep : s.step.getD 1 ≠ 0) :
    sliceLength n s ≤ n := by
  rcases h : sliceIndices n s with ⟨start, stop, step⟩
  have hb := sliceIndices_bounds n s start stop step h
  have hstep' : step ≠ 0 := by
    rw [stepOf_eq n s start stop step h]
    exact hstep
  rw [sliceLength_eq n s start stop step h]
  rcases lt_or_gt_of_ne hstep' with hneg | hpos
  · obtain ⟨h1, h2, h3, h4⟩ := hb.2 hneg
    rw [if_neg (by omega : ¬(0 : Int) < step)]
    by_cases hlt : stop < start
    · rw [if_pos hlt]
      have hd : (0 : Int) ≤ start - stop - 1 := by omega
      have htd : (stop - start + 1).tdiv step = (start - stop - 1).tdiv (-step) := by
        rw [show stop - start + 1 = -(start - stop - 1) by ring, Int.neg_tdiv,
          Int.tdiv_neg]
      have htpos : (0 : Int) < -step := by omega
      rw [htd, Int.tdiv_eq_ediv hd (le_of_lt htpos)]
      have := Int.ediv_le_self (-step) hd
      have := Int.ediv_nonneg hd (le_of_lt htpos)
      omega
    · rw [if_neg hlt]
      omega
  · obtain ⟨h1, h2, h3, h4⟩ := hb.1 hpos
    rw [if_pos hpos]
    by_cases hlt : start < stop
    · rw [if_pos hlt]
      have hd : (0 : Int) ≤ stop - start - 1 := by omega
      rw [Int.tdiv_eq_ediv hd (le_of_lt hpos)]
      have := Int.ediv_le_self step hd
      have := Int.ediv_nonneg hd (le_of_lt hpos)
      omega
    · rw [if_neg hlt]
      omega

theorem specSliceLen_eq (n : Nat) (s : Pyslice) (start stop step : Int)
    (h : sliceIndices n s = (start, stop, step)) :
    specSliceLen n s =
      ((Finset.range n).filter fun (k : Nat) =>
        if 0 < step then start + (k : Int) * step < stop
        else stop < start + (k : Int) * step).card := by
  unfold specSliceLen
  rw [h]

theorem getSliceList_eq {α : Type} [Inhabited α] (xs : List α) (s : Pyslice)
    (start stop step : Int) (h : sliceIndices xs.length s = (start, stop, step)) :
    getSliceList xs s =
      (List.range (sliceLength xs.length s)).map fun (k : Nat) =>
        xs.getD (start + (k : Int) * step).toNat default := by
  unfold getSliceList
  rw [h]

theorem specSliceLen_eq_sliceLength (n : Nat) (s : Pyslice) (hstep : s.step.getD 1 ≠ 0) :
    specSliceLen n s = sliceLength n s := by
  rcases h : sliceIndices n s with ⟨start, stop, step⟩
  have hstep' : step ≠ 0 := by
    rw [stepOf_eq n s start stop step h]
    exact hstep
  have hle := sliceLength_le n s hstep
  rw [specSliceLen_eq n s start stop step h]
  rw [Finset.filter_congr
    (fun k _ => (lt_sliceLength_iff n s start stop step h hstep' k).symm)]
  have hr : (Finset.range n).filter (fun k => k < sliceLength n s) =
      Finset.range (sliceLength n s) := by
    ext k
    simp only [Finset.mem_filter, Finset.mem_range]
    omega
  rw [hr, Finset.card_range]

theorem slice_index_bounds (n : Nat) (s : Pyslice) (start stop step : Int)
    (h : sliceIndices n s = (start, stop, step)) (hstep : step ≠ 0) (k : Nat)
    (hk : k < sliceLength n s) :
    0 ≤ start + (k : Int) * step ∧ start + (k : Int) * step < (n : Int) := by
  have hb := sliceIndices_bounds n s start stop step h
  have hiff := (lt_sliceLength_iff n s start stop step h hstep k).mp hk
  rcases lt_or_gt_of_ne hstep with hneg | hpos
  · rw [if_neg (by omega)] at hiff
    obtain ⟨h1, h2, h3, h4⟩ := hb.2 hneg
    have hm : (0 : Int) ≤ (k : Int) * (-step) := mul_nonneg (by positivity) (by omega)
    have hks : (k : Int) * step = -((k : Int) * (-step)) := by ring
    omega
  · rw [if_pos hpos] at hiff
    obtain ⟨h1, h2, h3, h4⟩ := hb.1 hpos
    have hm : (0 : Int) ≤ (k : Int) * step := mul_nonneg (by positivity) (le_of_lt hpos)
    omega

theorem getSliceList_length {α : Type} [Inhabited α] (xs : List α) (s : Pyslice) :
    (getSliceList xs s).length = sliceLength xs.length s := by
  rcases hsi : sliceIndices xs.length s with ⟨start, stop, step⟩
  rw [getSliceList_eq xs s start stop step hsi, List.length_map, List.length_range]

theorem getSliceList_getD {α : Type} [Inhabited α] (xs : List α) (s : Pyslice) (k : Nat)
    (hk : k < sliceLength xs.length s) :
    (getSliceList xs s).getD k default =
      xs.getD
        ((sliceIndices xs.length s).1 + (k : Int) * (sliceIndices xs.length s).2.2).toNat
        default := by
  rcases hsi : sliceIndices xs.length s with ⟨start, stop, step⟩
  rw [getSliceList_eq xs s start stop step hsi, List.getD_eq_getElem?_getD,
    List.getElem?_map, List.getElem?_range hk]
  rfl

theorem except_bind_ok {ε α β : Type} (a : α) (f : α → Except ε β) :
    (Except.ok a : Except ε α) >>= f = f a := rfl

theorem map_range_getD {α : Type} [Inhabited α] (xs : List α) (a len : Nat)
    (h : a + len ≤ xs.length) :
    (List.range len).map (fun k => xs.getD (a + k) default) = (xs.drop a).take len := by
  apply List.ext_getElem
  · simp only [List.length_map, List.length_range, List.length_take, List.length_drop]
    omega
  · intro i h1 h2
    simp only [List.length_map, List.length_range] at h1
    simp only [List.getElem_map, List.getElem_range, List.getElem_take, List.getElem_drop]
    rw [List.getD_eq_getElem?_getD,
      List.getElem?_eq_getElem (by omega : a + i < xs.length), Option.getD_some]

theorem getSliceList_step_one {α : Type} [Inhabited α] (xs : List α) (s : Pyslice)
    (start stop : Int) (h : sliceIndices xs.length s = (start, stop, 1)) :
    getSliceList xs s = (xs.take stop.toNat).drop start.toNat := by
  obtain ⟨hb1, hb2, hb3, hb4⟩ :=
    (sliceIndices_bounds xs.length s start stop 1 h).1 (by norm_num)
  rw [getSliceList_eq xs s start stop 1 h, sliceLength_eq xs.length s start stop 1 h,
    if_pos (by norm_num : (0 : Int) < 1)]
  by_cases hlt : start < stop
  · rw [if_pos hlt]
    have hL : ((stop - start - 1).tdiv 1 + 1).toNat = stop.toNat - start.toNat := by
      rw [Int.tdiv_one]
      omega
    rw [hL]
    have hmc : ∀ k ∈ List.range (stop.toNat - start.toNat),
        xs.getD (start + (k : Int) * 1).toNat default = xs.getD (start.toNat + k) default := by
      intro k _
      congr 1
      omega
    rw [List.map_congr_left hmc,
      map_range_getD xs start.toNat (stop.toNat - start.toNat) (by omega), List.drop_take]
  · rw [if_neg hlt]
    have hdone : (xs.take stop.toNat).length ≤ start.toNat := by
      simp only [List.length_take]
      omega
    rw [List.range_zero, List.map_nil, List.drop_eq_nil_of_le hdone]

theorem getSliceList_tail {α : Type} [Inhabited α] (xs : List α) (a : Int)
    (h0 : 0 ≤ a) (h1 : a ≤ (xs.length : Int)) :
    getSliceList xs ⟨some a, none, none⟩ = xs.drop a.toNat := by
  have hsi : sliceIndices xs.length ⟨some a, none, none⟩ = (a, (xs.length : Int), 1) := by
    simp only [sliceIndices, Option.getD, Prod.mk.injEq]
    refine ⟨?_, ?_, trivial⟩ <;> split_ifs <;> omega
  rw [getSliceList_step_one xs _ a (xs.length : Int) hsi, Int.toNat_ofNat,
    List.take_length]

theorem getitemInt_ok {α : Type} [Inhabited α] (v : Vector α) (i : Int)
    (h0 : 0 ≤ i) (h1 : i < (v.len : Int)) :
    getitemInt v i = .ok (v._components.getD i.toNat default) := by
  simp only [getitemInt]
  rw [if_neg (by omega : ¬i < 0),
    if_pos (⟨h0, h1⟩ : (0 : Int) ≤ i ∧ i < (v.len : Int))]

theorem getitemInt_last {α : Type} [Inhabited α] (v : Vector α) (h : 0 < v.len) :
    getitemInt v (-1) = .ok (v._components.getD (v.len - 1) default) := by
  simp only [getitemInt]
  rw [if_pos (by norm_num : (-1 : Int) < 0),
    if_pos (by omega : (0 : Int) ≤ -1 + (v.len : Int) ∧ -1 + (v.len : Int) < (v.len : Int))]
  have harg : ((-1) + (v.len : Int)).toNat = v.len - 1 := by omega
  rw [harg]

theorem angle_eq_spec (v : Vector ℝ) (k : Nat) (h1 : 1 ≤ k) (h2 : k < v.len) :
    angle v (k : Int) = .ok (specAngle v k) := by
  have hk2 : k ≤ v._components.length := Nat.le_of_lt h2
  have htail : getitemSlice v ⟨some (k : Int), none, none⟩ =
      .ok ⟨v._components.drop k⟩ := by
    unfold getitemSlice
    rw [if_neg (by simp : ¬(Pyslice.mk (some (k : Int)) none none).step.getD 1 = 0)]
    rw [getSliceList_tail v._components (k : Int) (by positivity) (by exact_mod_cast hk2),
      Int.toNat_ofNat]
  unfold angle
  rw [htail, except_bind_ok]
  rw [getitemInt_ok v ((k : Int) - 1) (by omega) (by omega), except_bind_ok]
  have harg : ((k : Int) - 1).toNat = k - 1 := by omega
  rw [harg]
  by_cases hkeq : (k : Int) = (v.len : Int) - 1
  · rw [if_pos hkeq, getitemInt_last v (by omega), except_bind_ok]
    have hkn : k = v.len - 1 := by omega
    by_cases hneg : v._components.getD (v.len - 1) default < 0
    · rw [if_pos hneg]
      have hs : specAngle v k =
          2 * Real.pi - atan2 (hypot (v._components.drop k)) (v._components.getD (k - 1) 0) := by
        unfold specAngle
        rw [if_pos (⟨hkn, hneg⟩ : k = v.len - 1 ∧ v._components.getD (v.len - 1) 0 < 0)]
      rw [hs]
      rfl
    · rw [if_neg hneg]
      have hs : specAngle v k =
          atan2 (hypot (v._components.drop k)) (v._components.getD (k - 1) 0) := by
        unfold specAngle
        rw [if_neg (by
          rintro ⟨-, hx⟩
          exact hneg hx)]
      rw [hs]
      rfl
  · rw [if_neg hkeq]
    have hs : specAngle v k =
        atan2 (hypot (v._components.drop k)) (v._components.getD (k - 1) 0) := by
      unfold specAngle
      rw [if_neg (by
        rintro ⟨ha, -⟩
        omega)]
    rw [hs]
    rfl

/-! ## Claim theorems -/

/-- C1 (amended): `Vector.__eq__` returns true iff the two operands have
equal length and every corresponding pair of components compares equal,
pairwise and in order — but the operand is any sized iterable, not only a
`Vector`: the code performs no `isinstance` check, so a `Vector` compares
equal to a plain tuple or list with matching contents. -/
theorem eq_pairwise_contract {α : Type} [DecidableEq α] (v : Vector α) (other : Pyseq α) :
    eqPy v other = true ↔
      v.len = other.len ∧ List.Forall₂ (fun a b : α => a = b) v._components other.toList :=
  eqPy_eq_true_iff v other

/-- C1, counterexample to the claim as stated: a `Vector` with components
`[1, 2]` compares equal to the non-`Vector` tuple `(1, 2)`, because
`Vector.__eq__` never checks the operand's type. -/
theorem eq_vector_equals_tuple :
    eqPy (⟨[1, 2]⟩ : Vector ℤ) (Pyseq.tuple [1, 2]) = true := by decide

/-- C2: decoding the binary encoding of a `Vector` — one leading type-tag
byte, then the packed bytes of every component in order — succeeds and
yields a `Vector` that is equal to the original under the `__eq__`
contract, for every `Vector` including the zero-dimensional one.  `pack`
and `unpack` stand for the machine's fixed-width packing of one component
value, an exact bijection onto 8-byte strings. -/
theorem bytes_roundtrip_contract {α : Type} [DecidableEq α]
    (pack : α → List Nat) (unpack : List Nat → α) (v : Vector α)
    (hlen : ∀ x, (pack x).length = 8) (hinv : ∀ x, unpack (pack x) = x) :
    ∃ w : Vector α, frombytes unpack (toBytesPy pack v) = .ok w ∧
      eqPy w (Pyseq.vec v) = true := by
  have hmem : ∀ c ∈ v._components.map pack, c.length = 8 := by
    intro c hc
    obtain ⟨x, -, rfl⟩ := List.mem_map.mp hc
    exact hlen x
  refine ⟨v, ?_, eqPy_vec_self v⟩
  simp only [toBytesPy, frombytes]
  rw [if_pos trivial, if_pos (flatten_length_mod8 _ hmem), chunks8_flatten _ hmem]
  rw [List.map_map, show v._components.map (unpack ∘ pack) = v._components from
    (List.map_congr_left fun a _ => hinv a).trans (List.map_id _)]

/-- C2 witness: the round trip evaluated at the concrete two-component
vector `[3, 7]` and at the zero-dimensional vector, with a concrete
8-byte-per-item packing. -/
theorem bytes_roundtrip_witness :
    (∃ w : Vector Nat,
        frombytes (fun l => l.headD 0)
          (toBytesPy (fun x => [x, 0, 0, 0, 0, 0, 0, 0]) (⟨[3, 7]⟩ : Vector Nat)) = .ok w ∧
        eqPy w (Pyseq.vec ⟨[3, 7]⟩) = true) ∧
    (∃ w : Vector Nat,
        frombytes (fun l => l.headD 0)
          (toBytesPy (fun x => [x, 0, 0, 0, 0, 0, 0, 0]) (⟨[]⟩ : Vector Nat)) = .ok w ∧
        eqPy w (Pyseq.vec ⟨[]⟩) = true) :=
  ⟨bytes_roundtrip_contract _ _ _ (fun _ => rfl) (fun _ => rfl),
    bytes_roundtrip_contract _ _ _ (fun _ => rfl) (fun _ => rfl)⟩

/-- C3: indexing a `Vector` with any valid slice (any bounds, negative
indices, nonzero step of either sign) returns a new `Vector` — built by
dispatching to the class constructor, never the raw buffer type — whose
components are the selected sub-sequence, item `k` being the component at
the normalized index `start + k * step`, and whose length equals the
normalized slice length.  (The model has one `Vector` class, so "the
runtime type of `v`" is represented by the `Vector` constructor itself.) -/
theorem getitem_slice_contract {α : Type} [Inhabited α] (v : Vector α) (s : Pyslice)
    (hstep : s.step.getD 1 ≠ 0) :
    ∃ w : Vector α, getItem v (.slice s) = .ok (.vec w) ∧
      w.len = specSliceLen v.len s ∧
      ∀ k : Nat, k < w.len → ∃ j : Nat,
        (j : Int) = (sliceIndices v.len s).1 + (k : Int) * s.step.getD 1 ∧
        j < v.len ∧ w._components.getD k default = v._components.getD j default := by
  rcases hsi : sliceIndices v._components.length s with ⟨start, stop, step⟩
  have hstep2 : step = s.step.getD 1 := stepOf_eq _ s start stop step hsi
  have hstep3 : step ≠ 0 := by
    rw [hstep2]
    exact hstep
  refine ⟨⟨getSliceList v._components s⟩, ?_, ?_, ?_⟩
  · simp only [getItem, getitemSlice, if_neg hstep, Except.map]
  · show (getSliceList v._components s).length = specSliceLen v._components.length s
    rw [getSliceList_length, specSliceLen_eq_sliceLength v._components.length s hstep]
  · intro k hk
    have hk' : k < sliceLength v._components.length s := by
      rw [show (⟨getSliceList v._components s⟩ : Vector α).len
          = (getSliceList v._components s).length from rfl, getSliceList_length] at hk
      exact hk
    have hbd := slice_index_bounds v._components.length s start stop step hsi hstep3 k hk'
    refine ⟨(start + (k : Int) * step).toNat, ?_, ?_, ?_⟩
    · rw [Int.toNat_of_nonneg hbd.1]
      show start + (k : Int) * step = (sliceIndices v.len s).1 + (k : Int) * s.step.getD 1
      rw [show sliceIndices v.len s = (start, stop, step) from hsi, ← hstep2]
    · show (start + (k : Int) * step).toNat < v._components.length
      have h2 := hbd.2
      have h1 := hbd.1
      omega
    · have hg := getSliceList_getD v._components s k hk'
      rw [hsi] at hg
      exact hg

/-- C3 witness: the contract evaluated at the concrete negative-step
slice `v[-1::-2]` of a five-component vector. -/
theorem getitem_slice_witness :
    (⟨some (-1), none, some (-2)⟩ : Pyslice).step.getD 1 ≠ 0 ∧
    ∃ w : Vector ℤ,
      getItem (⟨[0, 1, 2, 3, 4]⟩ : Vector ℤ)
          (.slice ⟨some (-1), none, some (-2)⟩) = .ok (.vec w) ∧
      w.len = specSliceLen (⟨[0, 1, 2, 3, 4]⟩ : Vector ℤ).len ⟨some (-1), none, some (-2)⟩ ∧
      ∀ k : Nat, k < w.len → ∃ j : Nat,
        (j : Int) =
          (sliceIndices (⟨[0, 1, 2, 3, 4]⟩ : Vector ℤ).len ⟨some (-1), none, some (-2)⟩).1 +
            (k : Int) * ((⟨some (-1), none, some (-2)⟩ : Pyslice).step.getD 1) ∧
        j < (⟨[0, 1, 2, 3, 4]⟩ : Vector ℤ).len ∧
        w._components.getD k default =
          (⟨[0, 1, 2, 3, 4]⟩ : Vector ℤ)._components.getD j default :=
  ⟨by decide, getitem_slice_contract ⟨[0, 1, 2, 3, 4]⟩ ⟨some (-1), none, some (-2)⟩ (by decide)⟩

/-- C4: `Vector.__hash__` is the left-to-right xor-reduction, with
identity element 0, of the component hashes (so the empty `Vector` hashes
to 0), and vectors equal under `__eq__` have equal hashes. -/
theorem hash_xor_contract {α : Type} [DecidableEq α] (hashF : α → Nat) (a b : Vector α) :
    hashPy hashF a = (a._components.map hashF).foldl Nat.xor 0 ∧
    hashPy hashF (⟨[]⟩ : Vector α) = 0 ∧
    (eqPy a (Pyseq.vec b) = true → hashPy hashF a = hashPy hashF b) := by
  refine ⟨rfl, rfl, fun h => ?_⟩
  rw [hashPy, hashPy, eqPy_components_eq h]

/-- C4 witness: two concrete equal vectors with equal hashes under a
concrete component hash. -/
theorem hash_xor_witness :
    eqPy (⟨[3, 5]⟩ : Vector ℤ) (Pyseq.vec ⟨[3, 5]⟩) = true ∧
    hashPy Int.natAbs (⟨[3, 5]⟩ : Vector ℤ) = hashPy Int.natAbs ⟨[3, 5]⟩ :=
  ⟨by decide, (hash_xor_contract Int.natAbs ⟨[3, 5]⟩ ⟨[3, 5]⟩).2.2 (by decide)⟩

/-- C5 (amended): on the revision that defines the write guard
(`Vector3.__setattr__`), assigning to a one-letter lowercase name fails
with an `AttributeError` — the readonly message for the positional
aliases `x y z t`, the reserved-namespace message for every other
lowercase letter — and leaves the instance dict (hence the `_components`
buffer) unchanged, while any other name follows normal write semantics.
The final consolidated `class Vector` defines no `__setattr__`, so such
writes succeed on its instances (see the counterexample). -/
theorem setattr_guard_contract {V : Type} (d : List (String × V)) (name : String) (value : V) :
    (name ∈ matchArgs → setattr3 d name value = (some (.readonlyAttr name), d)) ∧
    (islowerStr name = true → name.length = 1 → name ∉ matchArgs →
      setattr3 d name value = (some .reservedLower, d)) ∧
    (¬(name.length = 1 ∧ islowerStr name = true) →
      setattr3 d name value = (none, dictSet d name value)) ∧
    (∀ e d', setattr3 d name value = (some e, d') → d' = d) := by
  refine ⟨fun hm => ?_, fun hlow h1 hnm => ?_, fun h => ?_, fun e d' heq => ?_⟩
  · have h1 : name.length = 1 := by
      rcases (by simpa [matchArgs] using hm : name = "x" ∨ name = "y" ∨ name = "z" ∨
        name = "t") with rfl | rfl | rfl | rfl <;> rfl
    simp [setattr3, h1, hm]
  · simp [setattr3, h1, hnm, hlow]
  · by_cases h1 : name.length = 1
    · have hlow : ¬islowerStr name = true := fun hl => h ⟨h1, hl⟩
      have hnm : name ∉ matchArgs := by
        intro hm
        apply hlow
        rcases (by simpa [matchArgs] using hm : name = "x" ∨ name = "y" ∨ name = "z" ∨
          name = "t") with rfl | rfl | rfl | rfl <;> rfl
      simp [setattr3, h1, hnm, hlow]
    · simp [setattr3, h1]
  · revert heq
    unfold setattr3
    split_ifs <;> intro heq <;>
      first
        | (simp only [Prod.mk.injEq] at heq; exact heq.2.symm)
        | simp at heq

/-- C5 witness: the guard evaluated at a concrete instance dict — a
positional alias, another lowercase letter, and a normal multi-letter
name. -/
theorem setattr_guard_witness :
    setattr3 [("_components", (0 : ℤ))] "y" 5 =
      (some (.readonlyAttr "y"), [("_components", 0)]) ∧
    setattr3 [("_components", (0 : ℤ))] "b" 5 = (some .reservedLower, [("_components", 0)]) ∧
    setattr3 [("_components", (0 : ℤ))] "size" 5 =
      (none, dictSet [("_components", 0)] "size" 5) :=
  ⟨(setattr_guard_contract _ "y" 5).1 (by decide),
    (setattr_guard_contract _ "b" 5).2.1 (by decide) (by decide) (by decide),
    (setattr_guard_contract _ "size" 5).2.2.1 (by decide)⟩

/-- C5, counterexample to the claim as stated: on an instance of the
final consolidated `class Vector` — which defines no `__setattr__` —
assigning to the single-letter lowercase name `x` succeeds (no
`AttributeError`) and binds `x` in the instance dict. -/
theorem setattr_final_write_succeeds :
    setattrFinal [("_components", (0 : ℤ))] "x" 5 =
      (none, [("_components", 0), ("x", 5)]) := by decide

/-- C6: single-element indexing succeeds exactly on strict integer
indices in `[-n, n-1]` (negative ones counting from the end): a float key
and a comma-separated composite key both fail with the invalid-index-type
error (`operator.index` raises `TypeError`, never truncates), and an
integer key outside range fails with the index-out-of-range error. -/
theorem getitem_index_contract {α : Type} [Inhabited α] (v : Vector α) :
    (∀ x : ℚ, getItem v (.float x) = .error .InvalidIndexType) ∧
    (∀ parts, getItem v (.tuple parts) = .error .InvalidIndexType) ∧
    (∀ i : Int, -(v.len : Int) ≤ i → i < (v.len : Int) →
      getItem v (.int i) =
        .ok (.scalar (v._components.getD
          (if i < 0 then i + (v.len : Int) else i).toNat default))) ∧
    (∀ i : Int, i < -(v.len : Int) ∨ (v.len : Int) ≤ i →
      getItem v (.int i) = .error .IndexOutOfRange) := by
  refine ⟨fun _ => rfl, fun _ => rfl, fun i h1 h2 => ?_, fun i h => ?_⟩
  · by_cases hneg : i < 0 <;>
      simp only [getItem, getitemInt, hneg, if_true, if_false, Except.map] <;>
      rw [if_pos (by constructor <;> omega)]
  · by_cases hneg : i < 0 <;>
      simp only [getItem, getitemInt, hneg, if_true, if_false, Except.map] <;>
      rw [if_neg (by omega)]

/-- C6 witness: the three error/success modes at a concrete
three-component vector. -/
theorem getitem_index_witness :
    getItem (⟨[10, 20, 30]⟩ : Vector ℤ) (.float (7 / 2)) = .error .InvalidIndexType ∧
    getItem (⟨[10, 20, 30]⟩ : Vector ℤ) (.int (-1)) = .ok (.scalar 30) ∧
    getItem (⟨[10, 20, 30]⟩ : Vector ℤ) (.int 3) = .error .IndexOutOfRange := by
  have h := getitem_index_contract (⟨[10, 20, 30]⟩ : Vector ℤ)
  refine ⟨h.1 (7 / 2), ?_, h.2.2.2 3 (by decide)⟩
  have h3 := h.2.2.1 (-1) (by decide) (by decide)
  rw [h3]
  rfl

theorem except_pure {ε α : Type} (a : α) : (pure a : Except ε α) = .ok a := rfl

theorem sum_sq_eq_zero_iff (xs : List ℝ) :
    (xs.map fun x => x ^ 2).sum = 0 ↔ ∀ x ∈ xs, x = 0 := by
  induction xs with
  | nil => simp
  | cons y ys ih =>
    have hy : 0 ≤ y ^ 2 := sq_nonneg y
    have hs : 0 ≤ (ys.map fun x => x ^ 2).sum := by
      apply List.sum_nonneg
      intro a ha
      obtain ⟨x, -, rfl⟩ := List.mem_map.mp ha
      exact sq_nonneg x
    simp only [List.map_cons, List.sum_cons, List.mem_cons]
    constructor
    · intro hsum
      have h1 : y ^ 2 = 0 := by linarith
      have h2 : (ys.map fun x => x ^ 2).sum = 0 := by linarith
      intro x hx
      rcases hx with rfl | hx
      · exact sq_eq_zero_iff.mp h1
      · exact (ih.mp h2) x hx
    · intro hall
      have hy0 : y = 0 := hall y (Or.inl rfl)
      have h2 : ∀ x ∈ ys, x = 0 := fun x hx => hall x (Or.inr hx)
      rw [hy0, ih.mpr h2]
      norm_num

theorem hypot_eq_zero_iff (xs : List ℝ) : hypot xs = 0 ↔ ∀ x ∈ xs, x = 0 := by
  unfold hypot
  rw [Real.sqrt_eq_zero (by
    apply List.sum_nonneg
    intro a ha
    obtain ⟨x, -, rfl⟩ := List.mem_map.mp ha
    exact sq_nonneg x), sum_sq_eq_zero_iff]

theorem anglesPy_mapM (v : Vector ℝ) :
    (anglesPy v).mapM id = Except.ok (specAngles v) := by
  unfold anglesPy specAngles
  have key : ∀ l : List Nat, (∀ n ∈ l, 1 ≤ n ∧ n < v.len) →
      (l.map fun (n : Nat) => angle v (n : Int)).mapM id
        = Except.ok (l.map (specAngle v)) := by
    intro l
    induction l with
    | nil => intro _; rfl
    | cons a rest ih =>
      intro hmem
      obtain ⟨ha1, ha2⟩ := hmem a (List.mem_cons_self a rest)
      simp only [List.map_cons, List.mapM_cons, id_eq]
      rw [angle_eq_spec v a ha1 ha2, ih fun n hn => hmem n (List.mem_cons_of_mem _ hn)]
      rfl
  apply key
  intro n hn
  rw [List.mem_range'] at hn
  obtain ⟨i, hi, rfl⟩ := hn
  omega

/-- C7: for every axis index `k` in `[1, n-1]`, `Vector.angle(k)` returns
the two-argument arctangent of (the Euclidean magnitude of components
`k..n-1`, component `k-1`), except that when `k` is the last axis and the
last component is strictly negative the result is `2π` minus that
arctangent. -/
theorem angle_contract (v : Vector ℝ) (k : Nat) (h1 : 1 ≤ k) (h2 : k ≤ v.len - 1) :
    angle v (k : Int) = .ok (specAngle v k) :=
  angle_eq_spec v k h1 (by omega)

/-- C7 witness: the angle of the two-component vector `[3, 4]` about axis
1 — the last axis, with a nonnegative last component, so no correction
applies. -/
theorem angle_contract_witness :
    1 ≤ 1 ∧ 1 ≤ (⟨[3, 4]⟩ : Vector ℝ).len - 1 ∧
    angle (⟨[3, 4]⟩ : Vector ℝ) ((1 : Nat) : Int) = .ok (specAngle ⟨[3, 4]⟩ 1) :=
  ⟨le_refl 1, by norm_num [Vector.len],
    angle_contract ⟨[3, 4]⟩ 1 (le_refl 1) (by norm_num [Vector.len])⟩

/-- C8: `Vector.__format__` with a spec ending in the `'h'` marker renders
`<magnitude, angle_1, ..., angle_(n-1)>` — the magnitude then the
hyperspherical angles in increasing axis order, each formatted with the
spec minus its final character; without the marker it renders
`(c_1, ..., c_n)` with every Cartesian component formatted with the full
spec; both modes join the parts with `", "`. -/
theorem format_contract (fmtc : String → ℝ → String) (v : Vector ℝ) (spec : String) :
    formatPy fmtc v spec =
      if endsWithH spec then
        .ok ("<" ++ String.intercalate ", "
          ((absPy v :: specAngles v).map (fmtc (spec.dropRight 1))) ++ ">")
      else
        .ok ("(" ++ String.intercalate ", " (v._components.map (fmtc spec)) ++ ")") := by
  unfold formatPy
  by_cases hh : endsWithH spec
  · rw [if_pos hh, if_pos hh, anglesPy_mapM, except_bind_ok]
    rfl
  · rw [if_neg hh, if_neg hh]
    rfl

/-- C8 witness: the hyperspherical mode at the claim's example
`format(Vector([1, 1]), '.3fh')` with a constant per-component renderer,
plus the exact values of the two rendered coordinates: magnitude `√2`
(≈ 1.414) and angle `π/4` (≈ 0.785). -/
theorem format_contract_witness :
    formatPy (fun _ _ => "c") (⟨[1, 1]⟩ : Vector ℝ) ".3fh" = .ok "<c, c>" ∧
    absPy (⟨[1, 1]⟩ : Vector ℝ) = Real.sqrt 2 ∧
    specAngle (⟨[1, 1]⟩ : Vector ℝ) 1 = Real.pi / 4 := by
  refine ⟨?_, ?_, ?_⟩
  · rw [format_contract]
    rw [if_pos (by decide : endsWithH ".3fh" = true)]
    rfl
  · unfold absPy hypot
    simp only [List.map_cons, List.map_nil, List.sum_cons, List.sum_nil]
    norm_num
  · have h1 : specAngle (⟨[1, 1]⟩ : Vector ℝ) 1 = atan2 (hypot [1]) 1 := by
      unfold specAngle
      rw [if_neg ?_]
      · rfl
      · rintro ⟨-, hx⟩
        norm_num [Vector.len, List.getD] at hx
    have h2 : hypot [1] = 1 := by
      unfold hypot
      simp only [List.map_cons, List.map_nil, List.sum_cons, List.sum_nil, one_pow,
        add_zero]
      exact Real.sqrt_one
    rw [h1, h2]
    unfold atan2
    rw [if_pos one_pos, div_one, Real.arctan_one]

/-- C10: the truthiness of a `Vector` (`bool(abs(self))`) is false exactly
when every component is zero — equivalently, exactly when the Euclidean
magnitude is zero — and in particular the zero-dimensional `Vector` is
falsy. -/
theorem bool_contract (v : Vector ℝ) :
    (¬boolPy v ↔ ∀ x ∈ v._components, x = 0) ∧
    (boolPy v ↔ absPy v ≠ 0) ∧ ¬boolPy (⟨[]⟩ : Vector ℝ) := by
  refine ⟨?_, Iff.rfl, ?_⟩
  · unfold boolPy pyTruthFloat absPy
    rw [not_not, hypot_eq_zero_iff]
  · unfold boolPy pyTruthFloat absPy hypot
    simp

/-- C10 witness: the zero vector `[0, 0]` is falsy and `[3, 4]` is
truthy. -/
theorem bool_contract_witness :
    ¬boolPy (⟨[0, 0]⟩ : Vector ℝ) ∧ boolPy (⟨[3, 4]⟩ : Vector ℝ) := by
  constructor
  · apply (bool_contract ⟨[0, 0]⟩).1.mpr
    intro x hx
    simp only [List.mem_cons, List.not_mem_nil, or_false] at hx
    rcases hx with rfl | rfl <;> rfl
  · by_contra hb
    have h3 := (bool_contract ⟨[3, 4]⟩).1.mp hb 3 (by simp)
    norm_num at h3

theorem string_toList_append (a b : String) : (a ++ b).toList = a.toList ++ b.toList :=
  String.data_append a b

theorem pyFind_append (l t : List Char) (c : Char) (h : pyFind l c ≠ -1) :
    pyFind (l ++ t) c = pyFind l c := by
  induction l with
  | nil => simp [pyFind] at h
  | cons a rest ih =>
    by_cases hac : a = c
    · show pyFind (a :: (rest ++ t)) c = pyFind (a :: rest) c
      simp only [pyFind, if_pos hac]
    · simp only [pyFind, if_neg hac] at h
      by_cases hr : pyFind rest c = -1
      · rw [if_pos hr] at h
        exact absurd rfl h
      · show pyFind (a :: (rest ++ t)) c = pyFind (a :: rest) c
        simp only [pyFind, if_neg hac]
        rw [ih hr]

theorem slice_brackets (mid : List Char) :
    getSliceList ("array('d', [".toList ++ (mid ++ "])".toList)) ⟨some 11, some (-1), none⟩
      = '[' :: (mid ++ [']']) := by
  have h1 : ("array('d', [".toList).length = 12 := by decide
  have h2 : ("])".toList).length = 2 := by decide
  have hlen : ("array('d', [".toList ++ (mid ++ "])".toList)).length = 14 + mid.length := by
    simp only [List.length_append, h1, h2]
    omega
  have hsi : sliceIndices ("array('d', [".toList ++ (mid ++ "])".toList)).length
      ⟨some 11, some (-1), none⟩ =
      (11, (("array('d', [".toList ++ (mid ++ "])".toList)).length : Int) - 1, 1) := by
    rw [hlen]
    simp only [sliceIndices, Option.getD, Prod.mk.injEq]
    refine ⟨?_, ?_, trivial⟩ <;> split_ifs <;> omega
  rw [getSliceList_step_one _ _ 11 _ hsi]
  have ht : ((("array('d', [".toList ++ (mid ++ "])".toList)).length : Int) - 1).toNat =
      13 + mid.length := by
    rw [hlen]
    omega
  rw [ht]
  have hsplit : "array('d', [".toList ++ (mid ++ "])".toList) =
      ("array('d', [".toList ++ (mid ++ [']'])) ++ [')'] := by
    have : "])".toList = [']'] ++ [')'] := by decide
    rw [this]
    simp [List.append_assoc]
  rw [hsplit, List.take_left' (by
    simp only [List.length_append, h1, List.length_cons, List.length_nil]
    omega)]
  rw [show Int.toNat 11 = 11 from rfl]
  rw [List.drop_append_of_le_length (by omega : 11 ≤ ("array('d', [".toList).length)]
  have hd : ("array('d', [".toList).drop 11 = ['['] := by decide
  rw [hd]
  rfl

/-- C9: the debug representation is a total function of the instance, and
when the dimensionality exceeds reprlib's `maxarray = 5` it shows only
the first five components followed by the `...` elision indicator —
never all `n`. -/
theorem repr_bounded_contract {α : Type} (reprF : α → String) (v : Vector α)
    (h : 5 < v.len) :
    reprPy reprF v =
      "Vector([" ++
        String.intercalate ", " ((v._components.take 5).map reprF ++ ["..."]) ++ "])" := by
  have hne : ¬v._components.isEmpty = true := by
    have hx : v._components ≠ [] := by
      intro h0
      rw [Vector.len, h0] at h
      simp at h
    simpa [List.isEmpty_iff] using hx
  have hra : reprlibArray reprF v._components =
      "array('d', [" ++
        String.intercalate ", " ((v._components.take 5).map reprF ++ ["..."]) ++ "])" := by
    have h5 : 5 < v._components.length := h
    unfold reprlibArray
    rw [if_neg hne, if_pos h5]
  have hrw : reprPy reprF v =
      "Vector(" ++
        String.mk (getSliceList (reprlibArray reprF v._components).toList
          ⟨some (pyFind (reprlibArray reprF v._components).toList '['), some (-1), none⟩) ++
        ")" := rfl
  rw [hrw, hra]
  have hcs : ("array('d', [" ++
      String.intercalate ", " ((v._components.take 5).map reprF ++ ["..."]) ++ "])").toList =
      "array('d', [".toList ++
        ((String.intercalate ", " ((v._components.take 5).map reprF ++ ["..."])).toList ++
          "])".toList) := by
    rw [string_toList_append, string_toList_append, List.append_assoc]
  rw [hcs]
  have hfind : pyFind ("array('d', [".toList ++
      ((String.intercalate ", " ((v._components.take 5).map reprF ++ ["..."])).toList ++
        "])".toList)) '[' = 11 := by
    rw [pyFind_append _ _ _ (by decide)]
    decide
  rw [hfind, slice_brackets]
  have hfin : ∀ l : List Char,
      "Vector(" ++ String.mk ('[' :: (l ++ [']'])) ++ ")" =
        "Vector([" ++ String.mk l ++ "])" := by
    intro l
    apply String.ext
    simp only [String.data_append]
    simp
  exact hfin _

/-- C9 witness: a seven-component vector renders five leading components
and the elision indicator. -/
theorem repr_bounded_witness :
    reprPy (fun n : ℤ => toString n) (⟨[0, 1, 2, 3, 4, 5, 6]⟩ : Vector ℤ) =
      "Vector([" ++
        String.intercalate ", "
          ((([0, 1, 2, 3, 4, 5, 6] : List ℤ).take 5).map (fun n : ℤ => toString n) ++
            ["..."]) ++ "])" :=
  repr_bounded_contract (fun n : ℤ => toString n) ⟨[0, 1, 2, 3, 4, 5, 6]⟩ (by decide)

end FluentPy
